import Mathlib

/-!
# Auralis world/agent simulation core — verification development

Shallow embedding of the discrete-time multi-agent simulation loop of the
Auralis repository (`agent.js` and `world.js` plus its demo driver), together
with proofs of the testable properties stated by the specification.

JavaScript objects are embedded as Lean structures; in-place mutation is
embedded as explicit state passing.  The action objects the code builds carry
the keys `agent`, `action` and `time`; a JS object may also later be read at
the keys `success` and `reason` (the dashboard reads `result.success` /
`result.reason`), and a key absent from the object reads as `undefined`, which
we embed as `Option` fields defaulting to `none`.
-/

namespace Auralis

/-- An action record, as built by `Agent.decide`:
`{ agent: this.name, action: "observe", time: world.time }`.
The `success` and `reason` keys are never set by the code; reading them
yields `undefined`, embedded as `none`. -/
structure Action where
  agent : String
  action : String
  time : Nat
  success : Option Bool := none
  reason : Option String := none
deriving Repr, DecidableEq

/-- An agent: its constructor sets `this.name = name; this.memory = [];`. -/
structure Agent where
  name : String
  memory : List Action
deriving Repr, DecidableEq

/-- Embeds `new Agent(name)`. -/
def mkAgent (name : String) : Agent :=
  { name := name, memory := [] }

/-- The world: its constructor sets `this.time = 0; this.agents = []; this.events = [];`. -/
structure World where
  time : Nat
  agents : List Agent
  events : List Action
deriving Repr, DecidableEq

/-- Embeds `new World()`. -/
def World.fresh : World :=
  { time := 0, agents := [], events := [] }

/-- Embeds `observe(world) { return world.events; }` — it returns the event log of the world. -/
def Agent.observe (_a : Agent) (w : World) : List Action :=
  w.events

/-- Embeds `decide(world)`: it builds the action
`{ agent: this.name, action: "observe", time: world.time }`, pushes it onto
the own `memory` of the agent, and returns it.  The mutation of `this` is embedded
by returning the updated agent alongside the action. -/
def Agent.decide (a : Agent) (w : World) : Action × Agent :=
  let action : Action := { agent := a.name, action := "observe", time := w.time }
  (action, { a with memory := a.memory ++ [action] })

/-- Embeds `registerAgent(agent) { this.agents.push(agent); }` — unconditional append. -/
def World.registerAgent (w : World) (a : Agent) : World :=
  { w with agents := w.agents ++ [a] }

/-- Embeds `resolve(action) { this.events.push(action); }`. -/
def World.resolve (w : World) (a : Action) : World :=
  { w with events := w.events ++ [a] }

/-- The body of the `for (const agent of this.agents)` loop inside `step`: each agent
decides against the current world and the result is resolved immediately,
before the next agent acts.  Returns the updated agent list together with the
updated world (whose `agents` field is still the stale list being iterated,
exactly as the live JS array is only mutated through the agents themselves). -/
def stepAgents : List Agent → World → List Agent × World
  | [], w => ([], w)
  | a :: rest, w =>
    let p := a.decide w
    let w' := w.resolve p.1
    let q := stepAgents rest w'
    (p.2 :: q.1, q.2)

/-- Embeds `step() { this.time += 1; for (const agent of this.agents) { const action =
agent.decide(this); this.resolve(action); } }`. -/
def World.step (w : World) : World :=
  let w1 : World := { w with time := w.time + 1 }
  let q := stepAgents w1.agents w1
  { q.2 with agents := q.1 }

/-- Embeds `runFor(n)`: the demo driver loop `for (let i = 0; i < n; i++) world.step();`. -/
def runFor : Nat → World → World
  | 0, w => w
  | n + 1, w => runFor n w.step

/-- A fresh world with the given agent names registered, in order, before any
step — as the demo does with `new World()` followed by two `registerAgent` calls. -/
def worldWith (names : List String) : World :=
  names.foldl (fun w nm => w.registerAgent (mkAgent nm)) World.fresh

/-- The observe-action of agent `nm` issued at world time `t` — the record
`decide` builds during the tick that brought the clock to `t`. -/
def mkObs (nm : String) (t : Nat) : Action :=
  { agent := nm, action := "observe", time := t }

/-- The events contributed by one tick at world time `t`: one observe-action
per registered agent, in registration order. -/
def tickEvents (names : List String) (t : Nat) : List Action :=
  names.map (fun nm => mkObs nm t)

/-- The whole event log after `n` ticks from a fresh world with agents
`names`: the block of tick 1, then the block of tick 2, and so on. -/
def eventsLog (names : List String) (n : Nat) : List Action :=
  ((List.range n).map (fun i => tickEvents names (i + 1))).flatten

/-- Modelled from the spec: `reset()` is absent from the reviewed source (only
the backend endpoint `/simulation/reset` is referenced by the UI).  The spec
says a World is "torn down/reset by clearing state to initial values — no
partial resets", keeping the same agent configuration: time and events return
to their constructor values and the state of each registered agent (its memory)
is cleared. -/
def World.reset (w : World) : World :=
  { time := 0
    agents := w.agents.map (fun a => { a with memory := [] })
    events := [] }

/-- An externally triggered operation on a world: a manual `step()` or a
registration. -/
inductive Op where
  | tick : Op
  | register (name : String) : Op
deriving Repr, DecidableEq

/-- Apply one operation. -/
def applyOp (w : World) : Op → World
  | .tick => w.step
  | .register nm => w.registerAgent (mkAgent nm)

/-- Run a sequence of operations from a given world. -/
def applyOps (w : World) (ops : List Op) : World :=
  ops.foldl applyOp w

-- ## Basic step characterisation

theorem stepAgents_spec (l : List Agent) (w : World) :
    stepAgents l w =
      (l.map (fun a => { a with memory := a.memory ++ [mkObs a.name w.time] }),
       { w with events := w.events ++ l.map (fun a => mkObs a.name w.time) }) := by
  induction l generalizing w with
  | nil => simp [stepAgents]
  | cons a rest ih =>
    simp only [stepAgents, Agent.decide, World.resolve, mkObs, ih, List.map_cons,
      List.append_assoc, List.singleton_append]

theorem World.step_spec (w : World) :
    w.step =
      { time := w.time + 1
        agents := w.agents.map
          (fun a => { a with memory := a.memory ++ [mkObs a.name (w.time + 1)] })
        events := w.events ++ w.agents.map (fun a => mkObs a.name (w.time + 1)) } := by
  simp [World.step, stepAgents_spec]

theorem worldWith_spec (names : List String) :
    worldWith names = { time := 0, agents := names.map mkAgent, events := [] } := by
  have h : ∀ (l : List String) (w : World),
      l.foldl (fun w nm => w.registerAgent (mkAgent nm)) w =
        { w with agents := w.agents ++ l.map mkAgent } := by
    intro l
    induction l with
    | nil => intro w; simp
    | cons nm rest ih =>
      intro w
      rw [List.foldl_cons, ih]
      simp [World.registerAgent, List.append_assoc]
  simpa [worldWith, World.fresh] using h names World.fresh

theorem runFor_succ_right (n : Nat) (w : World) :
    runFor (n + 1) w = (runFor n w).step := by
  induction n generalizing w with
  | zero => rfl
  | succ n ih => exact ih w.step

/-- Closed form of `n` steps from an arbitrary world: the clock advances by
`n`, the memory of each registered agent gains its own observe-action for each
tick, and the event log gains, for each tick in order, one block holding one
observe-action per registered agent in list order. -/
theorem runFor_spec (n : Nat) (w : World) :
    runFor n w =
      { time := w.time + n
        agents := w.agents.map (fun a =>
          { a with memory := a.memory ++
              (List.range n).map (fun i => mkObs a.name (w.time + i + 1)) })
        events := w.events ++
          ((List.range n).map
            (fun i => w.agents.map (fun a => mkObs a.name (w.time + i + 1)))).flatten } := by
  induction n with
  | zero => simp [runFor]
  | succ n ih =>
    rw [runFor_succ_right, ih, World.step_spec]
    simp [List.range_succ, List.map_map, Function.comp, List.append_assoc,
      Nat.add_assoc]

/-- Specialisation to a fresh world with agents `names`: the event log is
exactly `eventsLog names n` and the memory of each agent is its own column of it. -/
theorem runFor_worldWith (names : List String) (n : Nat) :
    runFor n (worldWith names) =
      { time := n
        agents := names.map (fun nm =>
          { name := nm, memory := (List.range n).map (fun i => mkObs nm (i + 1)) })
        events := eventsLog names n } := by
  rw [worldWith_spec, runFor_spec]
  simp [eventsLog, tickEvents, mkAgent, List.map_map, Function.comp_def]

-- ## Event log structure

theorem eventsLog_succ (names : List String) (n : Nat) :
    eventsLog names (n + 1) = eventsLog names n ++ tickEvents names (n + 1) := by
  simp [eventsLog, List.range_succ]

theorem tickEvents_length (names : List String) (t : Nat) :
    (tickEvents names t).length = names.length := by
  simp [tickEvents]

theorem eventsLog_length (names : List String) (n : Nat) :
    (eventsLog names n).length = n * names.length := by
  induction n with
  | zero => simp [eventsLog]
  | succ n ih =>
    rw [eventsLog_succ, List.length_append, ih, tickEvents_length, Nat.succ_mul]

theorem tickEvents_time {names : List String} {s : Nat} {e : Action}
    (he : e ∈ tickEvents names s) : e.time = s := by
  simp only [tickEvents, List.mem_map] at he
  obtain ⟨nm, _, rfl⟩ := he
  rfl

theorem eventsLog_time_le {names : List String} {n : Nat} {e : Action}
    (he : e ∈ eventsLog names n) : 1 ≤ e.time ∧ e.time ≤ n := by
  induction n with
  | zero => simp [eventsLog] at he
  | succ n ih =>
    rw [eventsLog_succ, List.mem_append] at he
    rcases he with h | h
    · exact ⟨(ih h).1, Nat.le_succ_of_le (ih h).2⟩
    · rw [tickEvents_time h]; omega

theorem tickEvents_filter (names : List String) (s t : Nat) :
    (tickEvents names s).filter (fun e => e.time == t) =
      if s = t then tickEvents names s else [] := by
  by_cases h : s = t
  · subst h
    simp only [if_pos rfl]
    apply List.filter_eq_self.mpr
    intro e he
    rw [tickEvents_time he]
    exact beq_self_eq_true s
  · rw [if_neg h]
    apply List.filter_eq_nil_iff.mpr
    intro e he
    rw [tickEvents_time he]
    simpa using h

theorem eventsLog_filter (names : List String) (n t : Nat) :
    (eventsLog names n).filter (fun e => e.time == t) =
      if 1 ≤ t ∧ t ≤ n then tickEvents names t else [] := by
  induction n with
  | zero =>
    have h0 : ¬ (1 ≤ t ∧ t ≤ 0) := by omega
    rw [if_neg h0]
    simp [eventsLog]
  | succ n ih =>
    rw [eventsLog_succ, List.filter_append, ih, tickEvents_filter]
    by_cases h1 : n + 1 = t
    · subst h1
      have hx : ¬ (1 ≤ n + 1 ∧ n + 1 ≤ n) := by omega
      have hy : 1 ≤ n + 1 ∧ n + 1 ≤ n + 1 := by omega
      simp [hx, hy]
    · have hiff : (1 ≤ t ∧ t ≤ n) ↔ (1 ≤ t ∧ t ≤ n + 1) := by omega
      simp [h1, hiff]

theorem tickEvents_pairwise_aux (s : Nat) (names : List String) :
    names.Pairwise (fun a b => (mkObs a s).time ≤ (mkObs b s).time) := by
  induction names with
  | nil => exact List.Pairwise.nil
  | cons nm rest ihn => exact List.Pairwise.cons (fun b _ => le_rfl) ihn

theorem eventsLog_pairwise (names : List String) (n : Nat) :
    (eventsLog names n).Pairwise (fun e₁ e₂ => e₁.time ≤ e₂.time) := by
  induction n with
  | zero => simp [eventsLog]
  | succ n ih =>
    rw [eventsLog_succ, List.pairwise_append]
    refine ⟨ih, ?_, ?_⟩
    · rw [tickEvents, List.pairwise_map]
      exact tickEvents_pairwise_aux (n + 1) names
    · intro e₁ h₁ e₂ h₂
      rw [tickEvents_time h₂]
      exact Nat.le_succ_of_le (eventsLog_time_le h₁).2

/-- Claim C1: for every n ≥ 0, running n steps on a fresh World whose agents
were all registered before the first step yields `time == n` and
`events.length == n * registeredAgentCount`. -/
theorem claim_c1 (names : List String) (n : Nat) :
    (runFor n (worldWith names)).time = n ∧
    (runFor n (worldWith names)).events.length =
      n * (worldWith names).agents.length := by
  rw [runFor_worldWith, worldWith_spec]
  exact ⟨rfl, by simp [eventsLog_length]⟩

/-- Claim C2: within a single tick the recorded events appear in agent
registration order (the events issued at time `t` are exactly `tickEvents
names t`, one observe-action per agent in registration order), and every
event of tick `k` precedes every event of tick `k+1` (the `time` stamps are
monotone along the log, so no later-tick event ever appears before an
earlier-tick one). -/
theorem claim_c2 (names : List String) (n : Nat) :
    (∀ t : Nat,
      (runFor n (worldWith names)).events.filter (fun e => e.time == t) =
        if 1 ≤ t ∧ t ≤ n then tickEvents names t else []) ∧
    (runFor n (worldWith names)).events.Pairwise (fun e₁ e₂ => e₁.time ≤ e₂.time) := by
  rw [runFor_worldWith]
  exact ⟨fun t => eventsLog_filter names n t, eventsLog_pairwise names n⟩

/-- Claim C5: every action produced during a tick carries as its `time` field
the time of the World during that tick (tick `i+1` contributes the `i`-th
block, all stamped `i+1`); in particular, after `runFor 3` with agents A1 and
A2 registered in that order, the six events carry times 1,1,2,2,3,3 for
agents A1,A2,A1,A2,A1,A2. -/
theorem claim_c5 (names : List String) (n : Nat) :
    ((runFor n (worldWith names)).events.map (fun e => e.time) =
      ((List.range n).map (fun i => names.map (fun _ => i + 1))).flatten) ∧
    (runFor 3 (worldWith ["A1", "A2"])).time = 3 ∧
    (runFor 3 (worldWith ["A1", "A2"])).events.length = 6 ∧
    (runFor 3 (worldWith ["A1", "A2"])).events.map (fun e => e.time) =
      [1, 1, 2, 2, 3, 3] ∧
    (runFor 3 (worldWith ["A1", "A2"])).events.map (fun e => e.agent) =
      ["A1", "A2", "A1", "A2", "A1", "A2"] := by
  refine ⟨?_, by decide, by decide, by decide, by decide⟩
  rw [runFor_worldWith]
  simp [eventsLog, tickEvents, List.map_map, Function.comp_def, mkObs]

/-- Claim C6: the simulation is deterministic — the full outcome of a run
(event log and every agent memory) is a function of the registration
sequence and the step count alone, so two runs of `n` steps from identical
fresh Worlds with the same registration sequence replay identically. -/
theorem claim_c6 (names : List String) (n : Nat) :
    (runFor n (worldWith names)).events = eventsLog names n ∧
    (runFor n (worldWith names)).agents.map Agent.memory =
      names.map (fun nm => (List.range n).map (fun i => mkObs nm (i + 1))) := by
  rw [runFor_worldWith]
  simp [List.map_map, Function.comp_def]

/-- Claim C7: `reset()` followed by `runFor n` produces results identical to
`runFor n` on a fresh World with the same agent configuration (the same
names registered in the same order). -/
theorem claim_c7 (w : World) (n : Nat) :
    runFor n w.reset = runFor n (worldWith (w.agents.map Agent.name)) := by
  have h : w.reset = worldWith (w.agents.map Agent.name) := by
    rw [worldWith_spec]
    simp [World.reset, mkAgent, List.map_map, Function.comp_def]
  rw [h]

-- ## Registration and resolution (claims C3 and C4)

/-- Claim C3 counterexample: registering a second agent whose id `"A"` is
already present does not fail and does not leave the agent list unchanged —
the code appends the duplicate, yielding two agents with id `"A"`. -/
theorem claim_c3_counterexample :
    ((World.fresh.registerAgent (mkAgent "A")).registerAgent (mkAgent "A")).agents ≠
      (World.fresh.registerAgent (mkAgent "A")).agents ∧
    ((World.fresh.registerAgent (mkAgent "A")).registerAgent (mkAgent "A")).agents =
      [mkAgent "A", mkAgent "A"] := by
  decide

/-- Claim C3 amended: `registerAgent` performs no duplicate-id check and can
never fail — it unconditionally appends the agent to the agent list, whether
or not an agent with the same id is already registered, and changes nothing
else. -/
theorem claim_c3_amended (w : World) (a : Agent) :
    (w.registerAgent a).agents = w.agents ++ [a] ∧
    (w.registerAgent a).events = w.events ∧
    (w.registerAgent a).time = w.time := by
  exact ⟨rfl, rfl, rfl⟩

/-- Claim C4 counterexample: resolving an action of unknown kind `"fly"` logs
it, but the logged event carries no `success := false` marker and no error
reason — both keys remain unset (`none`), so the claim that resolve produces
an Event with `success = false` carrying an `UnknownActionKindError` reason is
false. -/
theorem claim_c4_counterexample :
    (World.fresh.resolve { agent := "X", action := "fly", time := 1 }).events.map
        (fun e => e.success) = [none] ∧
    (World.fresh.resolve { agent := "X", action := "fly", time := 1 }).events.map
        (fun e => e.reason) = [none] ∧
    ((none : Option Bool) ≠ some false) := by
  decide

/-- Claim C4 amended: `resolve` appends every action — an unknown kind
included — unchanged to the events log (so it is never silently dropped), and
mutates nothing else: `time` and `agents` are untouched, and the World has no
market-price or volatility state at all.  No success flag or failure reason
is attached. -/
theorem claim_c4_amended (w : World) (a : Action) :
    (w.resolve a).events = w.events ++ [a] ∧
    (w.resolve a).time = w.time ∧
    (w.resolve a).agents = w.agents ∧
    a ∈ (w.resolve a).events := by
  refine ⟨rfl, rfl, rfl, ?_⟩
  simp [World.resolve]

-- ## Reference semantics of observe (claim C8)

/-- A store of heap-allocated JS arrays of events, indexed by reference. -/
def EvStore : Type := Nat → List Action

/-- Read the array a reference points to. -/
def evGet (s : EvStore) (r : Nat) : List Action := s r

/-- Embeds a JS `push` performed through a reference: the array that the
reference points to gains one element; every other array is untouched. -/
def evPush (s : EvStore) (r : Nat) (a : Action) : EvStore :=
  fun q => if q = r then s r ++ [a] else s q

/-- A world as the JS heap sees it: its `events` field is a reference to a
heap-allocated array. -/
structure HWorld where
  time : Nat
  eventsRef : Nat

/-- Embeds `observe(world) { return world.events; }` under JS reference
semantics: the method returns the value of the `events` field, which is the
reference to the live array — no copy is made. -/
def hObserve (w : HWorld) : Nat := w.eventsRef

/-- Claim C8 counterexample: the observation returned by `observe` is not a
read-only view — it is the very reference held by the World, so a `push`
performed through it changes the events the World sees (here from `[]` to a
one-element log). -/
theorem claim_c8_counterexample :
    ¬ (evGet (evPush (fun _ => []) (hObserve { time := 0, eventsRef := 0 })
          (mkObs "A" 1)) 0 =
        evGet (fun _ => []) 0) := by
  intro h
  simp [evGet, evPush, hObserve] at h

/-- Claim C8 amended: `observe` returns the events array of the World itself —
the same mutable reference, so a push through the returned observation appends
to the events the World reads — although the call to `observe` performs no
mutation itself: in the value model it simply returns the current events
list and leaves every World field untouched. -/
theorem claim_c8_amended (s : EvStore) (w : HWorld) (a : Action)
    (ag : Agent) (pw : World) :
    hObserve w = w.eventsRef ∧
    evGet (evPush s (hObserve w) a) w.eventsRef = evGet s w.eventsRef ++ [a] ∧
    ag.observe pw = pw.events := by
  refine ⟨rfl, ?_, rfl⟩
  simp [evGet, evPush, hObserve]

-- ## Memory/event-log coherence (claim C10)

/-- Memory invariant: the memory of each registered agent is exactly the
subsequence of the event log whose `agent` field is its name. -/
def memInv (w : World) : Prop :=
  ∀ a ∈ w.agents, a.memory = w.events.filter (fun e => e.agent == a.name)

/-- Every logged event names a registered agent. -/
def eventsByRegistered (w : World) : Prop :=
  ∀ e ∈ w.events, e.agent ∈ w.agents.map Agent.name

/-- The compound invariant preserved by the operations. -/
def coherent (w : World) : Prop :=
  memInv w ∧ eventsByRegistered w

theorem coherent_fresh : coherent World.fresh := by
  constructor
  · intro a ha
    simp [World.fresh] at ha
  · intro e he
    simp [World.fresh] at he

theorem step_names (w : World) :
    w.step.agents.map Agent.name = w.agents.map Agent.name := by
  rw [World.step_spec]
  simp [List.map_map, Function.comp_def]

theorem filter_agents_self (l : List Agent) (hnd : (l.map Agent.name).Nodup)
    (a : Agent) (ha : a ∈ l) :
    l.filter (fun b => b.name == a.name) = [a] := by
  induction l with
  | nil => cases ha
  | cons b rest ih =>
    rw [List.map_cons, List.nodup_cons] at hnd
    rcases List.mem_cons.mp ha with rfl | hmem
    · rw [List.filter_cons]
      have hself : (a.name == a.name) = true := beq_self_eq_true a.name
      rw [if_pos hself]
      have hnil : rest.filter (fun x => x.name == a.name) = [] := by
        apply List.filter_eq_nil_iff.mpr
        intro x hx
        have hne : x.name ≠ a.name := by
          intro hxy
          exact hnd.1 (hxy ▸ List.mem_map_of_mem Agent.name hx)
        simpa using hne
      rw [hnil]
    · rw [List.filter_cons]
      have hne : (b.name == a.name) = false := by
        have hx : b.name ≠ a.name := by
          intro hxy
          exact hnd.1 (hxy ▸ List.mem_map_of_mem Agent.name hmem)
        simpa using hx
      rw [hne]
      simp only [Bool.false_eq_true, if_false]
      exact ih hnd.2 hmem

theorem coherent_step (w : World) (hnd : (w.agents.map Agent.name).Nodup)
    (h : coherent w) : coherent w.step := by
  obtain ⟨h1, h2⟩ := h
  constructor
  · intro a' ha'
    rw [World.step_spec] at ha'
    simp only [List.mem_map] at ha'
    obtain ⟨a, ha, rfl⟩ := ha'
    show a.memory ++ [mkObs a.name (w.time + 1)] =
      w.step.events.filter (fun e => e.agent == a.name)
    rw [World.step_spec]
    show _ = (w.events ++ w.agents.map (fun b => mkObs b.name (w.time + 1))).filter
      (fun e => e.agent == a.name)
    rw [List.filter_append, ← h1 a ha, List.filter_map]
    have hcomp : ((fun e => e.agent == a.name) ∘
        (fun b : Agent => mkObs b.name (w.time + 1))) =
        fun b : Agent => b.name == a.name := by
      funext b
      rfl
    rw [hcomp, filter_agents_self w.agents hnd a ha]
    rfl
  · intro e he
    rw [World.step_spec] at he
    simp only [List.mem_append] at he
    rw [step_names]
    rcases he with h | h
    · exact h2 e h
    · simp only [List.mem_map] at h
      obtain ⟨b, hb, rfl⟩ := h
      exact List.mem_map_of_mem Agent.name hb

theorem coherent_register (w : World) (nm : String)
    (hnm : nm ∉ w.agents.map Agent.name) (h : coherent w) :
    coherent (w.registerAgent (mkAgent nm)) := by
  obtain ⟨h1, h2⟩ := h
  constructor
  · intro a ha
    simp only [World.registerAgent, List.mem_append, List.mem_singleton] at ha
    rcases ha with ha | rfl
    · exact h1 a ha
    · show (mkAgent nm).memory = _
      simp only [mkAgent]
      symm
      apply List.filter_eq_nil_iff.mpr
      intro e he
      have hne : e.agent ≠ nm := fun hc => hnm (hc ▸ h2 e he)
      simpa using hne
  · intro e he
    have hmem := h2 e he
    show e.agent ∈ (w.agents ++ [mkAgent nm]).map Agent.name
    rw [List.map_append]
    exact List.mem_append_left _ hmem

theorem applyOp_names (w : World) (op : Op) :
    ∃ l, (applyOp w op).agents.map Agent.name = w.agents.map Agent.name ++ l := by
  cases op with
  | tick =>
    refine ⟨[], ?_⟩
    show w.step.agents.map Agent.name = _
    rw [step_names, List.append_nil]
  | register nm =>
    refine ⟨[nm], ?_⟩
    simp [applyOp, World.registerAgent, mkAgent]

theorem applyOps_names (ops : List Op) (w : World) :
    ∃ l, (applyOps w ops).agents.map Agent.name = w.agents.map Agent.name ++ l := by
  induction ops generalizing w with
  | nil => exact ⟨[], by simp [applyOps]⟩
  | cons op rest ih =>
    obtain ⟨l1, h1⟩ := applyOp_names w op
    obtain ⟨l2, h2⟩ := ih (applyOp w op)
    refine ⟨l1 ++ l2, ?_⟩
    show (applyOps (applyOp w op) rest).agents.map Agent.name = _
    rw [h2, h1, List.append_assoc]

theorem coherent_applyOps (ops : List Op) (w : World) (h : coherent w)
    (hnd : ((applyOps w ops).agents.map Agent.name).Nodup) :
    coherent (applyOps w ops) := by
  induction ops generalizing w with
  | nil => exact h
  | cons op rest ih =>
    have hstep : applyOps w (op :: rest) = applyOps (applyOp w op) rest := rfl
    rw [hstep] at hnd ⊢
    obtain ⟨l, hl⟩ := applyOps_names rest (applyOp w op)
    have hnd1 : ((applyOp w op).agents.map Agent.name).Nodup := by
      rw [hl] at hnd
      exact hnd.of_append_left
    have hcoh : coherent (applyOp w op) := by
      cases op with
      | tick =>
        have hndw : (w.agents.map Agent.name).Nodup := by
          rw [show applyOp w Op.tick = w.step from rfl, step_names] at hnd1
          exact hnd1
        exact coherent_step w hndw ⟨h.1, h.2⟩
      | register nm =>
        have hx : (w.agents.map Agent.name ++ [nm]).Nodup := by
          simpa [applyOp, World.registerAgent, mkAgent] using hnd1
        have hnm : nm ∉ w.agents.map Agent.name := by
          have hdisj := (List.nodup_append.mp hx).2.2
          intro hmem
          exact hdisj hmem (by simp)
        exact coherent_register w nm hnm ⟨h.1, h.2⟩
    exact ih (applyOp w op) hcoh hnd

/-- Claim C10 counterexample: the invariant fails when two agents sharing the
name `"A"` are registered (which `registerAgent` allows): after one step each
holds one action in memory, while the event log filtered by `"A"` holds both
actions, so memory is not the filtered subsequence of the log. -/
theorem claim_c10_counterexample :
    ¬ (∀ a ∈ (runFor 1 (worldWith ["A", "A"])).agents,
        a.memory = (runFor 1 (worldWith ["A", "A"])).events.filter
          (fun e => e.agent == a.name)) := by
  decide

/-- Claim C10 amended: provided the registered agent names are pairwise
distinct, every operation sequence (manual steps and registrations, in any
order) on a fresh World keeps each registered agent memory exactly the
subsequence of the event log whose `agent` field is that agent name;
moreover each step appends exactly one entry — the same action record — to
the memory of each acting agent and one block to the events log, and
`registerAgent` changes neither the events nor any existing memory. -/
theorem claim_c10_amended (ops : List Op)
    (hnd : ((applyOps World.fresh ops).agents.map Agent.name).Nodup) :
    (∀ a ∈ (applyOps World.fresh ops).agents,
      a.memory = (applyOps World.fresh ops).events.filter
        (fun e => e.agent == a.name)) ∧
    (∀ w : World,
      w.step.agents = w.agents.map
        (fun a => { a with memory := a.memory ++ [mkObs a.name (w.time + 1)] }) ∧
      w.step.events = w.events ++ w.agents.map (fun a => mkObs a.name (w.time + 1))) ∧
    (∀ (w : World) (ag : Agent),
      (w.registerAgent ag).events = w.events ∧
      (w.registerAgent ag).agents.map Agent.memory =
        w.agents.map Agent.memory ++ [ag.memory]) := by
  refine ⟨(coherent_applyOps ops World.fresh coherent_fresh hnd).1, ?_, ?_⟩
  · intro w
    constructor
    · rw [World.step_spec]
    · rw [World.step_spec]
  · intro w ag
    exact ⟨rfl, by simp [World.registerAgent]⟩

/-- Witness for the amended claim C10: a concrete three-operation run —
register `"A"`, register `"B"`, one step — has pairwise-distinct names, and
the invariant holds for it. -/
theorem claim_c10_witness :
    ((applyOps World.fresh [Op.register "A", Op.register "B", Op.tick]).agents.map
        Agent.name).Nodup ∧
    (∀ a ∈ (applyOps World.fresh [Op.register "A", Op.register "B", Op.tick]).agents,
      a.memory = (applyOps World.fresh
          [Op.register "A", Op.register "B", Op.tick]).events.filter
        (fun e => e.agent == a.name)) :=
  ⟨by decide,
   (claim_c10_amended [Op.register "A", Op.register "B", Op.tick] (by decide)).1⟩

end Auralis
